import Mathlib

/-!
Shallow embedding of the Redux state layer of the `gutenberg` editor
(`src/editor/state.js` plus the block-category registry), together with
theorems about the behaviour of its transition functions (reducers).

JavaScript conventions captured by the embedding:
* an object field that may be absent (`undefined`) is an `Option`;
* `Array.prototype.slice` with negative or out-of-range arguments is
  modelled by `jsSlice` with exactly the ECMAScript clamping rules;
* `Array.prototype.indexOf` returns `-1` when absent (`jsIndexOf`);
* indexing out of range yields `undefined` (`jsIndex` returns `none`);
* lodash `without` excludes every occurrence of the value;
* lodash `omit` drops a key; lodash `keyBy` indexes a list, last wins;
* object spread `[action.uid]: v` overwrites an existing key in place or
  appends a fresh one (`objSet`).
-/

namespace Gutenberg

/-- Attribute bag of a block, a plain JS object of string fields. -/
abbrev Attrs := List (String × String)

/-- Post metadata object (shape opaque to the reducers). -/
abbrev Post := List (String × String)

/-- Focus configuration object carried by UPDATE_FOCUS. -/
abbrev Focus := List (String × String)

/-- A fully-formed block as carried by actions of the declared vocabulary. -/
structure Block where
  uid : String
  blockType : String
  attributes : Attrs
deriving Repr, DecidableEq

/-- A block-shaped JS object as stored in the `blocksByUid` map; any field
may be absent, which matters for `UPDATE_BLOCK` on an unknown uid where the
spread of `undefined` produces a partial object. -/
structure BlockObj where
  uid : Option String
  blockType : Option String
  attributes : Option Attrs
deriving Repr, DecidableEq

/-- View a fully-formed block as a stored object. -/
def Block.toObj (b : Block) : BlockObj :=
  ⟨some b.uid, some b.blockType, some b.attributes⟩

/-- The empty JS object (also what spreading `undefined` contributes). -/
def emptyObj : BlockObj := ⟨none, none, none⟩

/-- JS object spread of two block-shaped objects: fields present in
the update override fields of the base. -/
def spreadMerge (base upd : BlockObj) : BlockObj :=
  ⟨(upd.uid).orElse (fun _ => base.uid),
   (upd.blockType).orElse (fun _ => base.blockType),
   (upd.attributes).orElse (fun _ => base.attributes)⟩

/-- The `blocksByUid` object: keys in insertion order with their values. -/
abbrev BlockMap := List (String × BlockObj)

/-- JS property read `m[k]`: the value, or `undefined` when absent. -/
def objGet : BlockMap → String → Option BlockObj
  | [], _ => none
  | (k0, v0) :: rest, k => if k0 = k then some v0 else objGet rest k

/-- JS object write as performed by a spread with a computed key: an
existing key keeps its position, a fresh key is appended. -/
def objSet : BlockMap → String → BlockObj → BlockMap
  | [], k, v => [(k, v)]
  | (k0, v0) :: rest, k, v =>
    if k0 = k then (k, v) :: rest else (k0, v0) :: objSet rest k v

/-- lodash `omit(m, k)`: drop the key, keep everything else in order. -/
def objOmit (m : BlockMap) (k : String) : BlockMap :=
  m.filter (fun kv => kv.1 != k)

/-- Whether the object has the key. -/
def hasKey (m : BlockMap) (k : String) : Bool := (objGet m k).isSome

/-- lodash `keyBy` on the uid field: index the list by uid, later
entries overriding earlier ones. -/
def keyBy (bs : List Block) : BlockMap :=
  bs.foldl (fun m b => objSet m b.uid b.toObj) []

/-- The `blockOrder` array.  Entries are `Option String` because JS array
operations can plant `undefined` into the array (see `MOVE_BLOCK_UP` with
an absent uid). -/
abbrev Order := List (Option String)

/-- JS array indexing: the element when the index is in range, otherwise
`undefined`; a stored `undefined` and an out-of-range read coincide. -/
def jsIndex (l : Order) (i : Int) : Option String :=
  if h : 0 ≤ i ∧ i.toNat < l.length then l.get ⟨i.toNat, h.2⟩ else none

/-- `Array.prototype.indexOf` for a string value: index of the first
occurrence, or `-1`. -/
def jsIndexOf : Order → String → Int
  | [], _ => -1
  | x :: rest, u =>
    if x = some u then 0
    else
      let r := jsIndexOf rest u
      if r < 0 then -1 else r + 1

/-- `Array.prototype.slice(start, stop)` with ECMAScript clamping of
negative and out-of-range indices. -/
def jsSlice (l : Order) (start stop : Int) : Order :=
  let len : Int := l.length
  let s : Int := if start < 0 then max (len + start) 0 else min start len
  let e : Int := if stop < 0 then max (len + stop) 0 else min stop len
  (l.drop s.toNat).take (e - s).toNat

/-- `Array.prototype.slice(start)`: slice to the end. -/
def jsSliceFrom (l : Order) (start : Int) : Order :=
  jsSlice l start l.length

/-- lodash `last`: the final element, or `undefined` for an empty array. -/
def jsLast (l : Order) : Option String :=
  jsIndex l ((l.length : Int) - 1)

/-- The declared event vocabulary of the store, one constructor per action
type dispatched in `src/editor/state.js`, carrying the fields each action
is documented to have. -/
inductive Action where
  | editPost (post : Option Post) (blockNodes : List Block)
  | postUpdateRequest (isNew : Bool)
  | postUpdateRequestSuccess (post : Post) (isNew : Bool)
  | postUpdateRequestFailure (error : String) (isNew : Bool)
  | updateBlock (uid : String) (updates : BlockObj)
  | insertBlock (block : Block) (after : Option String)
  | switchBlockType (uid : String) (block : Block)
  | removeBlock (uid : String)
  | moveBlockUp (uid : String)
  | moveBlockDown (uid : String)
  | toggleBlockSelected (uid : String) (selected : Bool)
  | toggleBlockHovered (uid : String) (hovered : Bool)
  | updateFocus (uid : String) (config : Option Focus)
  | startTyping (uid : String)
  | switchMode (mode : String)
  | toggleSidebar
deriving Repr, DecidableEq

/-- The `post` sub-reducer of the undoable `editor` reducer.
`EDIT_POST` keeps the prior state when `action.post` is absent
(`action.post || state`); `POST_UPDATE_REQUEST_SUCCESS` replaces it. -/
def post (state : Post) (action : Action) : Post :=
  match action with
  | .editPost p _ =>
    match p with
    | some p => p
    | none => state
  | .postUpdateRequestSuccess p _ => p
  | _ => state

/-- The `blocksByUid` sub-reducer of the undoable `editor` reducer. -/
def blocksByUid (state : BlockMap) (action : Action) : BlockMap :=
  match action with
  | .editPost _ blockNodes => keyBy blockNodes
  | .updateBlock uid updates =>
    objSet state uid (spreadMerge ((objGet state uid).getD emptyObj) updates)
  | .insertBlock block _ => objSet state block.uid block.toObj
  | .switchBlockType uid block => objSet state uid block.toObj
  | .removeBlock uid => objOmit state uid
  | _ => state

/-- The `blockOrder` sub-reducer of the undoable `editor` reducer.
`INSERT_BLOCK` computes `action.after ? state.indexOf(action.after) + 1 :
state.length` (an empty-string anchor is falsy); the move cases guard on
the first/last element and otherwise splice around `indexOf`. -/
def blockOrder (state : Order) (action : Action) : Order :=
  match action with
  | .editPost _ blockNodes => blockNodes.map (fun b => some b.uid)
  | .insertBlock block after =>
    let position : Int :=
      match after with
      | some aft => if aft = "" then (state.length : Int) else jsIndexOf state aft + 1
      | none => (state.length : Int)
    jsSlice state 0 position ++ some block.uid :: jsSliceFrom state position
  | .moveBlockUp uid =>
    if jsIndex state 0 = some uid then state
    else
      let index := jsIndexOf state uid
      let swappedUid := jsIndex state (index - 1)
      jsSlice state 0 (index - 1) ++ some uid :: swappedUid :: jsSliceFrom state (index + 1)
  | .moveBlockDown uid =>
    if jsLast state = some uid then state
    else
      let index := jsIndexOf state uid
      let swappedUid := jsIndex state (index + 1)
      jsSlice state 0 index ++ swappedUid :: some uid :: jsSliceFrom state (index + 2)
  | .removeBlock uid => state.filter (fun x => x != some uid)
  | _ => state

/-- State of the `selectedBlock` reducer: the empty object, or an object
with `uid`, `typing` and `focus` fields. -/
inductive SelState where
  | empty
  | sel (uid : String) (typing : Bool) (focus : Focus)
deriving Repr, DecidableEq

/-- JS read of `state.uid` on selection state: `undefined` on the empty
object. -/
def SelState.uidOf : SelState → Option String
  | .empty => none
  | .sel u _ _ => some u

/-- The `selectedBlock` reducer. -/
def selectedBlock (state : SelState) (action : Action) : SelState :=
  match action with
  | .toggleBlockSelected uid selected =>
    if !selected then
      if state.uidOf = some uid then .empty else state
    else
      if state.uidOf = some uid then state else .sel uid false []
  | .moveBlockUp uid | .moveBlockDown uid =>
    if state.uidOf = some uid then state else .sel uid false []
  | .insertBlock block _ => .sel block.uid false []
  | .updateFocus uid config =>
    match state with
    | .sel u t _ => .sel uid (if u = uid then t else false) (config.getD [])
    | .empty => .sel uid false (config.getD [])
  | .startTyping uid =>
    match state with
    | .sel u _ f => if u = uid then .sel u true f else .sel uid true []
    | .empty => .sel uid true []
  | _ => state

/-- The `hoveredBlock` reducer: the hovered uid or `null`. -/
def hoveredBlock (state : Option String) (action : Action) : Option String :=
  match action with
  | .toggleBlockHovered uid hovered => if hovered then some uid else none
  | .toggleBlockSelected _ selected => if selected then none else state
  | .startTyping _ => none
  | _ => state

/-- The `mode` reducer: current editor mode string. -/
def mode (state : String) (action : Action) : String :=
  match action with
  | .switchMode m => m
  | _ => state

/-- The `isSidebarOpened` reducer. -/
def isSidebarOpened (state : Bool) (action : Action) : Bool :=
  match action with
  | .toggleSidebar => !state
  | _ => state

/-- State of the `api` reducer: the initial empty object, or the request
status record. -/
inductive ApiState where
  | empty
  | record (requesting : Bool) (successful : Bool) (error : Option String) (isNew : Bool)
deriving Repr, DecidableEq

/-- The `api` reducer: network request status. -/
def api (state : ApiState) (action : Action) : ApiState :=
  match action with
  | .postUpdateRequest isNew => .record true false none isNew
  | .postUpdateRequestSuccess _ isNew => .record false true none isNew
  | .postUpdateRequestFailure error isNew => .record false true (some error) isNew
  | _ => state

/-- Composite state of the historied slices (`post`, `blocksByUid`,
`blockOrder`), i.e. one history snapshot. -/
structure EditorState where
  post : Post
  blocksByUid : BlockMap
  blockOrder : Order
deriving Repr, DecidableEq

/-- The undo/redo record kept by the undoable combinator. -/
structure HistoryRecord where
  past : List EditorState
  present : EditorState
  future : List EditorState
deriving Repr, DecidableEq

/-- One step of the combined historied slices on the present snapshot. -/
def editorPresentStep (s : EditorState) (a : Action) : EditorState :=
  { post := post s.post a
    blocksByUid := blocksByUid s.blocksByUid a
    blockOrder := blockOrder s.blockOrder a }

/-- The reset set passed to the undoable combinator:
the reset list holding only `EDIT_POST`. -/
def isResetType : Action → Bool
  | .editPost _ _ => true
  | _ => false

/-- Modelled from the spec: `combineUndoableReducers` is imported by
`src/editor/state.js` from `utils/undoable-reducer`, whose source is not
available; per the spec, the combinator computes the next present from
every historied slice, and on a reset event (here `EDIT_POST`) replaces
`present` wholesale and clears `past` and `future`; on a non-reset,
state-changing event it pushes the previous `present` onto `past` and
clears `future` (the retained-depth bound and undo/redo trigger events
are an external policy the spec leaves open, so the push is modelled
unbounded and no undo/redo action kinds exist in the vocabulary); on a
no-change event it returns the record unchanged. -/
def editor (h : HistoryRecord) (a : Action) : HistoryRecord :=
  let next := editorPresentStep h.present a
  if isResetType a then { past := [], present := next, future := [] }
  else if next = h.present then h
  else { past := h.present :: h.past, present := next, future := [] }

/-! ### Helper lemmas about the object operations -/

theorem objGet_objSet (m : BlockMap) (k u : String) (v : BlockObj) :
    objGet (objSet m k v) u = if k = u then some v else objGet m u := by
  induction m with
  | nil => simp [objSet, objGet]
  | cons kv rest ih =>
    obtain ⟨k0, v0⟩ := kv
    by_cases h0 : k0 = k
    · subst h0
      simp only [objSet, if_pos rfl, objGet]
      by_cases h1 : k0 = u <;> simp [h1]
    · simp only [objSet, if_neg h0, objGet, ih]
      by_cases h1 : k0 = u
      · subst h1
        have hku : ¬ k = k0 := fun h => h0 h.symm
        simp [hku]
      · simp [h1]

theorem hasKey_objSet (m : BlockMap) (k u : String) (v : BlockObj) :
    hasKey (objSet m k v) u = (k = u || hasKey m u) := by
  simp only [hasKey, objGet_objSet]
  by_cases h : k = u <;> simp [h]

theorem objGet_objOmit (m : BlockMap) (k u : String) :
    objGet (objOmit m k) u = if u = k then none else objGet m u := by
  induction m with
  | nil => simp [objOmit, objGet]
  | cons kv rest ih =>
    obtain ⟨k0, v0⟩ := kv
    simp only [objOmit, List.filter_cons] at ih ⊢
    by_cases h0 : k0 = k
    · subst h0
      rw [if_neg (by simp)]
      rw [ih]
      by_cases h1 : u = k0
      · simp [h1]
      · have h2 : ¬ k0 = u := fun h => h1 h.symm
        simp [h1, objGet, h2]
    · have hb : (k0 != k) = true := bne_iff_ne.mpr h0
      rw [hb]
      simp only [if_true, objGet]
      by_cases h1 : k0 = u
      · subst h1
        have h2 : ¬ k0 = k := h0
        simp [objGet, h2, if_pos rfl]
      · rw [if_neg h1, ih]
        by_cases h2 : u = k <;> simp [h2, objGet, h1]

theorem hasKey_objOmit (m : BlockMap) (k u : String) :
    hasKey (objOmit m k) u = (hasKey m u && !(u == k)) := by
  simp only [hasKey, objGet_objOmit]
  by_cases h : u = k <;> simp [h]

theorem hasKey_keyBy_foldl (ns : List Block) (init : BlockMap) (u : String) :
    hasKey (ns.foldl (fun m b => objSet m b.uid b.toObj) init) u =
      (hasKey init u || ns.any (fun b => b.uid = u)) := by
  induction ns generalizing init with
  | nil => simp
  | cons b rest ih =>
    simp only [List.foldl_cons, List.any_cons]
    rw [ih, hasKey_objSet]
    by_cases h : b.uid = u <;> simp [h]

theorem hasKey_keyBy (ns : List Block) (u : String) :
    hasKey (keyBy ns) u = ns.any (fun b => b.uid = u) := by
  rw [keyBy, hasKey_keyBy_foldl]
  simp [hasKey, objGet]

/-! ### Helper lemmas about the JS array operations -/

theorem jsIndexOf_nonneg_of_mem (l : Order) (u : String) (h : some u ∈ l) :
    0 ≤ jsIndexOf l u := by
  induction l with
  | nil => cases h
  | cons x rest ih =>
    by_cases hx : x = some u
    · simp [jsIndexOf, hx]
    · have hr : some u ∈ rest := by
        cases h with
        | head => exact absurd rfl hx
        | tail _ hmem => exact hmem
      have := ih hr
      simp only [jsIndexOf, if_neg hx]
      split <;> omega

theorem jsIndexOf_lt_length (l : Order) (u : String) :
    jsIndexOf l u < l.length := by
  induction l with
  | nil => simp [jsIndexOf]
  | cons x rest ih =>
    by_cases hx : x = some u
    · simp [jsIndexOf, hx]
    · simp only [jsIndexOf, if_neg hx, List.length_cons]
      split <;> push_cast <;> omega

theorem jsIndexOf_ge_neg_one (l : Order) (u : String) :
    -1 ≤ jsIndexOf l u := by
  induction l with
  | nil => simp [jsIndexOf]
  | cons x rest ih =>
    by_cases hx : x = some u
    · simp [jsIndexOf, hx]
    · simp only [jsIndexOf, if_neg hx]
      split <;> omega

/-- First-occurrence decomposition delivered by `indexOf` on a present
value. -/
theorem jsIndexOf_spec (l : Order) (u : String) (h : some u ∈ l) :
    ∃ pre suf : Order, l = pre ++ some u :: suf ∧ some u ∉ pre ∧
      jsIndexOf l u = (pre.length : Int) := by
  induction l with
  | nil => cases h
  | cons x rest ih =>
    by_cases hx : x = some u
    · subst hx
      exact ⟨[], rest, rfl, by simp, by simp [jsIndexOf]⟩
    · have hr : some u ∈ rest := by
        cases h with
        | head => exact absurd rfl hx
        | tail _ hmem => exact hmem
      obtain ⟨pre, suf, hdec, hnot, hidx⟩ := ih hr
      refine ⟨x :: pre, suf, by simp [hdec], ?_, ?_⟩
      · intro hmem
        cases hmem with
        | head => exact hx rfl
        | tail _ hmem => exact hnot hmem
      · have hge : 0 ≤ jsIndexOf rest u := jsIndexOf_nonneg_of_mem rest u hr
        simp only [jsIndexOf, if_neg hx]
        rw [if_neg (by omega)]
        rw [hidx]
        simp only [List.length_cons]
        push_cast
        omega

theorem jsSlice_zero_eq_take (l : Order) (p : Int) (h0 : 0 ≤ p)
    (hl : p ≤ (l.length : Int)) :
    jsSlice l 0 p = l.take p.toNat := by
  have hlen : (0 : Int) ≤ (l.length : Int) := by positivity
  simp only [jsSlice]
  rw [if_neg (by omega), if_neg (by omega)]
  have hs : min (0 : Int) (l.length : Int) = 0 := by omega
  have he : min p (l.length : Int) = p := by omega
  rw [hs, he]
  simp

theorem jsSliceFrom_eq_drop (l : Order) (p : Int) (h0 : 0 ≤ p)
    (hl : p ≤ (l.length : Int)) :
    jsSliceFrom l p = l.drop p.toNat := by
  simp only [jsSliceFrom, jsSlice]
  rw [if_neg (by omega), if_neg (by omega)]
  have hs : min p (l.length : Int) = p := by omega
  have he : min (l.length : Int) (l.length : Int) = (l.length : Int) := by omega
  rw [hs, he]
  apply List.take_of_length_le
  simp
  omega

theorem jsIndex_eq_get? (l : Order) (n : Nat) :
    jsIndex l (n : Int) = (l.get? n).join := by
  simp only [jsIndex]
  by_cases h : n < l.length
  · rw [dif_pos ⟨by positivity, by simpa using h⟩]
    rw [List.get?_eq_get h]
    rfl
  · rw [dif_neg (by simp; omega)]
    rw [List.get?_eq_none.mpr (by omega)]
    rfl

theorem jsIndexOf_append (pre suf : Order) (u : String) (hnot : some u ∉ pre) :
    jsIndexOf (pre ++ some u :: suf) u = (pre.length : Int) := by
  induction pre with
  | nil => simp [jsIndexOf]
  | cons y rest ih =>
    have hy : ¬ y = some u := fun h => hnot (h ▸ List.mem_cons_self _ _)
    have hrest : some u ∉ rest := fun h => hnot (List.mem_cons_of_mem _ h)
    have hr := ih hrest
    have hge : (0 : Int) ≤ jsIndexOf (rest ++ some u :: suf) u := by
      rw [hr]; positivity
    simp only [List.cons_append, jsIndexOf, if_neg hy, List.append_eq]
    rw [if_neg (by omega), hr]
    simp only [List.length_cons]
    push_cast
    ring

theorem jsIndex_append (pre : Order) (x : Option String) (t : Order) :
    jsIndex (pre ++ x :: t) (pre.length : Int) = x := by
  rw [jsIndex_eq_get?]
  rw [List.get?_append_right (le_refl _)]
  simp

theorem jsLast_concat (pre : Order) (x : Option String) :
    jsLast (pre ++ [x]) = x := by
  have hlen : (((pre ++ [x]).length : Nat) : Int) - 1 = (pre.length : Int) := by
    simp [List.length_append]
  rw [jsLast, hlen, jsIndex_append pre x []]

/-- Result of `MOVE_BLOCK_UP` on an order decomposed at the first
occurrence of the target uid, with a predecessor present: exactly the two
adjacent entries are exchanged. -/
theorem moveUp_result (pre suf : Order) (x : Option String) (u : String)
    (hnot : some u ∉ pre) (hx : x ≠ some u)
    (hhead : jsIndex (pre ++ x :: some u :: suf) 0 ≠ some u) :
    blockOrder (pre ++ x :: some u :: suf) (.moveBlockUp u) =
      pre ++ some u :: x :: suf := by
  have hnotc : some u ∉ pre ++ [x] := by
    intro h
    rcases List.mem_append.mp h with h | h
    · exact hnot h
    · simp at h
      exact hx h.symm
  have hidx : jsIndexOf (pre ++ x :: some u :: suf) u
      = ((pre.length + 1 : Nat) : Int) := by
    have h1 := jsIndexOf_append (pre ++ [x]) suf u hnotc
    simpa [List.append_assoc, List.length_append] using h1
  have hlen : (pre ++ x :: some u :: suf).length = pre.length + 2 + suf.length := by
    simp
    omega
  simp only [blockOrder]
  rw [if_neg hhead, hidx]
  have e1 : ((pre.length + 1 : Nat) : Int) - 1 = ((pre.length : Nat) : Int) := by
    push_cast; ring
  have e2 : ((pre.length + 1 : Nat) : Int) + 1 = ((pre.length + 2 : Nat) : Int) := by
    push_cast; ring
  rw [e1, e2]
  rw [jsSlice_zero_eq_take _ _ (by positivity) (by rw [hlen]; push_cast; omega)]
  rw [jsSliceFrom_eq_drop _ _ (by positivity) (by rw [hlen]; push_cast; omega)]
  rw [Int.toNat_natCast, Int.toNat_natCast]
  rw [jsIndex_append pre x (some u :: suf)]
  rw [List.take_left]
  have ho2 : pre ++ x :: some u :: suf = (pre ++ [x, some u]) ++ suf := by simp
  have hl2 : (pre ++ [x, some u]).length = pre.length + 2 := by simp
  rw [ho2, ← hl2, List.drop_left]

/-- Result of `MOVE_BLOCK_DOWN` on an order decomposed at the first
occurrence of the target uid, with a successor present. -/
theorem moveDown_result (pre suf : Order) (y : Option String) (u : String)
    (hnot : some u ∉ pre)
    (hlast : jsLast (pre ++ some u :: y :: suf) ≠ some u) :
    blockOrder (pre ++ some u :: y :: suf) (.moveBlockDown u) =
      pre ++ y :: some u :: suf := by
  have hidx : jsIndexOf (pre ++ some u :: y :: suf) u = (pre.length : Int) :=
    jsIndexOf_append pre (y :: suf) u hnot
  have hlen : (pre ++ some u :: y :: suf).length = pre.length + 2 + suf.length := by
    simp
    omega
  simp only [blockOrder]
  rw [if_neg hlast, hidx]
  have e1 : ((pre.length : Nat) : Int) + 1 = ((pre.length + 1 : Nat) : Int) := by
    push_cast; ring
  have e2 : ((pre.length : Nat) : Int) + 2 = ((pre.length + 2 : Nat) : Int) := by
    push_cast; ring
  rw [e1, e2]
  rw [jsSlice_zero_eq_take _ _ (by positivity) (by rw [hlen]; push_cast; omega)]
  rw [jsSliceFrom_eq_drop _ _ (by positivity) (by rw [hlen]; push_cast; omega)]
  rw [Int.toNat_natCast, Int.toNat_natCast]
  have hy : jsIndex (pre ++ some u :: y :: suf) ((pre.length + 1 : Nat) : Int) = y := by
    have h1 := jsIndex_append (pre ++ [some u]) y suf
    simpa [List.append_assoc, List.length_append] using h1
  rw [hy]
  rw [List.take_left]
  have ho2 : pre ++ some u :: y :: suf = (pre ++ [some u, y]) ++ suf := by simp
  have hl2 : (pre ++ [some u, y]).length = pre.length + 2 := by simp
  rw [ho2, ← hl2, List.drop_left]

/-- A `MOVE_BLOCK_UP` whose target is present but not first decomposes the
order at the first occurrence and swaps it with its predecessor. -/
theorem moveUp_decomp (o : Order) (u : String) (hmem : some u ∈ o)
    (hhead : jsIndex o 0 ≠ some u) :
    ∃ pre x suf, o = pre ++ x :: some u :: suf ∧ some u ∉ pre ∧ x ≠ some u ∧
      blockOrder o (.moveBlockUp u) = pre ++ some u :: x :: suf := by
  obtain ⟨pre0, suf, hdec, hnot, _⟩ := jsIndexOf_spec o u hmem
  rcases List.eq_nil_or_concat pre0 with h0 | ⟨pre, x, hpre⟩
  · exfalso
    apply hhead
    rw [hdec, h0]
    have h1 := jsIndex_eq_get? (some u :: suf) 0
    simpa using h1
  · rw [List.concat_eq_append] at hpre
    have hdec2 : o = pre ++ x :: some u :: suf := by
      rw [hdec, hpre]
      simp
    have hnotp : some u ∉ pre := by
      intro h
      exact hnot (by rw [hpre]; exact List.mem_append_left _ h)
    have hx : x ≠ some u := by
      intro h
      exact hnot (by rw [hpre, h]; simp)
    refine ⟨pre, x, suf, hdec2, hnotp, hx, ?_⟩
    rw [hdec2] at hhead ⊢
    exact moveUp_result pre suf x u hnotp hx hhead

/-- A `MOVE_BLOCK_DOWN` whose target is present but not last decomposes
the order at the first occurrence and swaps it with its successor. -/
theorem moveDown_decomp (o : Order) (u : String) (hmem : some u ∈ o)
    (hlast : jsLast o ≠ some u) :
    ∃ pre y suf, o = pre ++ some u :: y :: suf ∧ some u ∉ pre ∧
      blockOrder o (.moveBlockDown u) = pre ++ y :: some u :: suf := by
  obtain ⟨pre, suf0, hdec, hnot, _⟩ := jsIndexOf_spec o u hmem
  cases suf0 with
  | nil =>
    exfalso
    apply hlast
    rw [hdec]
    exact jsLast_concat pre (some u)
  | cons y suf =>
    refine ⟨pre, y, suf, hdec, hnot, ?_⟩
    rw [hdec] at hlast ⊢
    exact moveDown_result pre suf y u hnot hlast

/-- `INSERT_BLOCK` always splices the new uid in at a position between `0`
and the length of the order. -/
theorem insertBlock_order (o : Order) (b : Block) (after : Option String) :
    ∃ p : Nat, p ≤ o.length ∧
      blockOrder o (.insertBlock b after) = o.take p ++ some b.uid :: o.drop p := by
  have key : ∀ q : Int, 0 ≤ q → q ≤ (o.length : Int) →
      jsSlice o 0 q ++ some b.uid :: jsSliceFrom o q
        = o.take q.toNat ++ some b.uid :: o.drop q.toNat := by
    intro q h0 hl
    rw [jsSlice_zero_eq_take _ _ h0 hl, jsSliceFrom_eq_drop _ _ h0 hl]
  cases after with
  | none =>
    refine ⟨o.length, le_refl _, ?_⟩
    simp only [blockOrder]
    rw [key (o.length : Int) (by positivity) (le_refl _)]
    rw [Int.toNat_natCast]
  | some aft =>
    by_cases haft : aft = ""
    · refine ⟨o.length, le_refl _, ?_⟩
      simp only [blockOrder, if_pos haft]
      rw [key (o.length : Int) (by positivity) (le_refl _)]
      rw [Int.toNat_natCast]
    · have hge := jsIndexOf_ge_neg_one o aft
      have hlt := jsIndexOf_lt_length o aft
      refine ⟨(jsIndexOf o aft + 1).toNat, by omega, ?_⟩
      simp only [blockOrder, if_neg haft]
      rw [key (jsIndexOf o aft + 1) (by omega) (by omega)]

/-! ### The document-content invariant -/

/-- The spec invariant for the Document Content Slice: the set of
identifiers in `blockOrder` equals the key set of `blocksByUid` (so in
particular `blockOrder` holds no `undefined` entry). -/
def orderMapInv (o : Order) (m : BlockMap) : Prop :=
  ∀ x : Option String, x ∈ o ↔ ∃ u, x = some u ∧ hasKey m u = true

/-! ### Handled event kinds per transition function, read off the `case`
labels of each reducer in `src/editor/state.js` -/

def postHandled : Action → Bool
  | .editPost _ _ | .postUpdateRequestSuccess _ _ => true
  | _ => false

def blocksByUidHandled : Action → Bool
  | .editPost _ _ | .updateBlock _ _ | .insertBlock _ _
  | .switchBlockType _ _ | .removeBlock _ => true
  | _ => false

def blockOrderHandled : Action → Bool
  | .editPost _ _ | .insertBlock _ _ | .moveBlockUp _
  | .moveBlockDown _ | .removeBlock _ => true
  | _ => false

def selectedBlockHandled : Action → Bool
  | .toggleBlockSelected _ _ | .moveBlockUp _ | .moveBlockDown _
  | .insertBlock _ _ | .updateFocus _ _ | .startTyping _ => true
  | _ => false

def hoveredBlockHandled : Action → Bool
  | .toggleBlockHovered _ _ | .toggleBlockSelected _ _ | .startTyping _ => true
  | _ => false

def modeHandled : Action → Bool
  | .switchMode _ => true
  | _ => false

def isSidebarOpenedHandled : Action → Bool
  | .toggleSidebar => true
  | _ => false

def apiHandled : Action → Bool
  | .postUpdateRequest _ | .postUpdateRequestSuccess _ _
  | .postUpdateRequestFailure _ _ => true
  | _ => false

/-! ### Claim theorems -/

/-- Claim C2 (code evidence): inserting a block whose anchor identifier is
absent from `blockOrder` places the new identifier at position 0, not at
the end: `indexOf` returns `-1`, the reducer computes `-1 + 1 = 0`, and
the new uid lands in front.  This is the off-by-one fallback the spec
explicitly rules out, so the claim is right and the code is the slip. -/
theorem C2_absent_anchor_inserts_at_front :
    blockOrder [some "a"] (.insertBlock ⟨"b", "core/freeform", []⟩ (some "missing"))
      = [some "b", some "a"] := by decide

/-- Claim C3: dispatching a load-document (`EDIT_POST`) event to the
historied `editor` reducer yields a history record whose `past` and
`future` are both empty, whatever the prior record held (`EDIT_POST` is in
`resetTypes`, and the reset path of the combinator discards both stacks). -/
theorem C3_load_clears_history (h : HistoryRecord) (p : Option Post)
    (ns : List Block) :
    (editor h (.editPost p ns)).past = []
      ∧ (editor h (.editPost p ns)).future = [] := by
  simp [editor, isResetType]

/-- Claim C4: for each of the eight transition functions, an event whose
kind the function does not handle returns the prior state unchanged (the
default `return state` of the source, i.e. the same reference); every function
is total over the declared event vocabulary by construction of the
embedding, so none raises. -/
theorem C4_unknown_kind_noop (ps : Post) (bm : BlockMap) (o : Order)
    (s : SelState) (hv : Option String) (md : String) (sb : Bool)
    (ap : ApiState) (a : Action) :
    (postHandled a = false → post ps a = ps) ∧
    (blocksByUidHandled a = false → blocksByUid bm a = bm) ∧
    (blockOrderHandled a = false → blockOrder o a = o) ∧
    (selectedBlockHandled a = false → selectedBlock s a = s) ∧
    (hoveredBlockHandled a = false → hoveredBlock hv a = hv) ∧
    (modeHandled a = false → mode md a = md) ∧
    (isSidebarOpenedHandled a = false → isSidebarOpened sb a = sb) ∧
    (apiHandled a = false → api ap a = ap) := by
  cases a <;>
    simp [postHandled, blocksByUidHandled, blockOrderHandled,
      selectedBlockHandled, hoveredBlockHandled, modeHandled,
      isSidebarOpenedHandled, apiHandled, post, blocksByUid, blockOrder,
      selectedBlock, hoveredBlock, mode, isSidebarOpened, api]

theorem C4_witness :
    post [] .toggleSidebar = [] ∧
    blocksByUid [] .toggleSidebar = [] ∧
    blockOrder [] .toggleSidebar = [] ∧
    selectedBlock .empty .toggleSidebar = .empty ∧
    hoveredBlock none .toggleSidebar = none ∧
    mode "visual" .toggleSidebar = "visual" ∧
    isSidebarOpened false (.switchMode "text") = false ∧
    api .empty .toggleSidebar = .empty := by
  have h1 := C4_unknown_kind_noop [] [] [] .empty none "visual" false
    .empty .toggleSidebar
  have h2 := C4_unknown_kind_noop [] [] [] .empty none "visual" false
    .empty (.switchMode "text")
  exact ⟨h1.1 rfl, h1.2.1 rfl, h1.2.2.1 rfl, h1.2.2.2.1 rfl,
    h1.2.2.2.2.1 rfl, h1.2.2.2.2.2.1 rfl, h2.2.2.2.2.2.2.1 rfl,
    h1.2.2.2.2.2.2.2 rfl⟩

/-- Claim C7: selecting the already-selected identifier is a no-op
returning the same selection state; deselecting the currently-selected
identifier collapses to the empty object; deselecting any other
identifier returns the state unchanged. -/
theorem C7_selection_toggle (s : SelState) (u : String) :
    (s.uidOf = some u → selectedBlock s (.toggleBlockSelected u true) = s) ∧
    (s.uidOf = some u → selectedBlock s (.toggleBlockSelected u false) = .empty) ∧
    (s.uidOf ≠ some u → selectedBlock s (.toggleBlockSelected u false) = s) := by
  refine ⟨?_, ?_, ?_⟩ <;> intro h <;> simp [selectedBlock, h]

theorem C7_witness :
    (SelState.sel "a" true []).uidOf = some "a" ∧
    selectedBlock (.sel "a" true []) (.toggleBlockSelected "a" true)
      = .sel "a" true [] ∧
    selectedBlock (.sel "a" true []) (.toggleBlockSelected "a" false)
      = .empty ∧
    selectedBlock (.sel "a" true []) (.toggleBlockSelected "b" false)
      = .sel "a" true [] := by
  have h := C7_selection_toggle (.sel "a" true []) "a"
  have h2 := C7_selection_toggle (.sel "a" true []) "b"
  exact ⟨rfl, h.1 rfl, h.2.1 rfl, h2.2.2 (by decide)⟩

/-- Claim C8: a hover event sets the hovered identifier or clears it to
`null` per its flag; a select event with `selected = true` clears hover to
`null`; a start-typing event clears hover to `null` for every identifier. -/
theorem C8_hover_rules (h : Option String) (u v w : String) (b : Bool) :
    hoveredBlock h (.toggleBlockHovered u b) = (if b then some u else none) ∧
    hoveredBlock h (.toggleBlockSelected v true) = none ∧
    hoveredBlock h (.startTyping w) = none := by
  refine ⟨rfl, ?_, rfl⟩
  simp [hoveredBlock]

/-- Claim C9: a `POST_UPDATE_REQUEST_FAILURE` event always produces the
record `requesting = false, successful = true, error = the supplied
error, isNew = the supplied flag` — the `successful` flag is set to
`true` even though the request failed, exactly as the source writes it. -/
theorem C9_failure_record (s : ApiState) (e : String) (b : Bool) :
    api s (.postUpdateRequestFailure e b) = .record false true (some e) b := rfl

/-- Claim C6 counterexample: removing `"a"` from a `blockOrder` holding it
twice empties the list — lodash `without` removes every occurrence, so
"exactly one occurrence removed" fails on this input. -/
theorem C6_counterexample :
    ¬ ((blockOrder [some "a", some "a"] (.removeBlock "a")).count (some "a") + 1
        = ([some "a", some "a"] : Order).count (some "a")) := by decide

/-- Claim C6 (amended): a remove-block event deletes the targeted
entry of the targeted identifier from the block map (other keys keep their values) and
removes every occurrence of that identifier from `blockOrder` (counts of
all other entries are untouched). -/
theorem C6_remove_all (o : Order) (m : BlockMap) (u w : String)
    (x : Option String) :
    objGet (blocksByUid m (.removeBlock u)) u = none ∧
    (w ≠ u → objGet (blocksByUid m (.removeBlock u)) w = objGet m w) ∧
    (blockOrder o (.removeBlock u)).count (some u) = 0 ∧
    (x ≠ some u → (blockOrder o (.removeBlock u)).count x = o.count x) := by
  refine ⟨?_, ?_, ?_, ?_⟩
  · simp [blocksByUid, objGet_objOmit]
  · intro h
    simp [blocksByUid, objGet_objOmit, h]
  · simp only [blockOrder]
    rw [List.count_eq_zero]
    intro hmem
    have h1 := (List.mem_filter.mp hmem).2
    simp at h1
  · intro h
    simp only [blockOrder]
    apply List.count_filter
    simpa using h

theorem C6_witness :
    objGet (blocksByUid [("a", emptyObj), ("b", emptyObj)] (.removeBlock "a")) "a"
      = none ∧
    objGet (blocksByUid [("a", emptyObj), ("b", emptyObj)] (.removeBlock "a")) "b"
      = objGet [("a", emptyObj), ("b", emptyObj)] "b" ∧
    (blockOrder [some "a", some "b"] (.removeBlock "a")).count (some "a") = 0 ∧
    (blockOrder [some "a", some "b"] (.removeBlock "a")).count (some "b")
      = ([some "a", some "b"] : Order).count (some "b") := by
  have h := C6_remove_all [some "a", some "b"] [("a", emptyObj), ("b", emptyObj)]
    "a" "b" (some "b")
  exact ⟨h.1, h.2.1 (by decide), h.2.2.1, h.2.2.2 (by decide)⟩

/-- Claim C10: an insert-block event whose block uid already exists in the
map overwrites the map entry (the key set does not grow) yet still splices
the uid into `blockOrder` as one additional occurrence, so `blockOrder`
can come to hold the same identifier twice. -/
theorem C10_duplicate_insert (o : Order) (m : BlockMap) (b : Block)
    (after : Option String) (h : hasKey m b.uid = true) :
    objGet (blocksByUid m (.insertBlock b after)) b.uid = some b.toObj ∧
    (∀ w, hasKey (blocksByUid m (.insertBlock b after)) w = hasKey m w) ∧
    (blockOrder o (.insertBlock b after)).count (some b.uid)
      = o.count (some b.uid) + 1 := by
  refine ⟨?_, ?_, ?_⟩
  · simp [blocksByUid, objGet_objSet]
  · intro w
    simp only [blocksByUid]
    rw [hasKey_objSet]
    by_cases hw : b.uid = w
    · subst hw
      simp [h]
    · simp [hw]
  · obtain ⟨p, hp, heq⟩ := insertBlock_order o b after
    have hsplit : o.count (some b.uid)
        = (o.take p).count (some b.uid) + (o.drop p).count (some b.uid) := by
      conv_lhs => rw [← List.take_append_drop p o]
      rw [List.count_append]
    rw [heq, List.count_append, List.count_cons]
    simp
    omega

theorem C10_witness :
    hasKey [("a", emptyObj)] "a" = true ∧
    (blockOrder [some "a"]
        (.insertBlock ⟨"a", "core/freeform", []⟩ none)).count (some "a") = 2 := by
  have h := C10_duplicate_insert [some "a"] [("a", emptyObj)]
    ⟨"a", "core/freeform", []⟩ none (by decide)
  refine ⟨by decide, ?_⟩
  rw [h.2.2]
  decide

/-- Claim C5: moving the first identifier up or the last identifier down
returns the input `blockOrder` unchanged (the source returns `state`
itself); otherwise a move event targeting a present identifier exchanges
exactly the two adjacent entries at the first occurrence of the target, and
the block map is untouched by move events. -/
theorem C5_move_swap (o : Order) (m : BlockMap) (u : String) :
    (jsIndex o 0 = some u → blockOrder o (.moveBlockUp u) = o) ∧
    (jsLast o = some u → blockOrder o (.moveBlockDown u) = o) ∧
    (some u ∈ o → jsIndex o 0 ≠ some u →
      ∃ pre x suf, o = pre ++ x :: some u :: suf ∧
        blockOrder o (.moveBlockUp u) = pre ++ some u :: x :: suf) ∧
    (some u ∈ o → jsLast o ≠ some u →
      ∃ pre y suf, o = pre ++ some u :: y :: suf ∧
        blockOrder o (.moveBlockDown u) = pre ++ y :: some u :: suf) ∧
    blocksByUid m (.moveBlockUp u) = m ∧
    blocksByUid m (.moveBlockDown u) = m := by
  refine ⟨?_, ?_, ?_, ?_, rfl, rfl⟩
  · intro h
    simp [blockOrder, h]
  · intro h
    simp [blockOrder, h]
  · intro hmem hhead
    obtain ⟨pre, x, suf, hdec, _, _, hres⟩ := moveUp_decomp o u hmem hhead
    exact ⟨pre, x, suf, hdec, hres⟩
  · intro hmem hlast
    obtain ⟨pre, y, suf, hdec, _, hres⟩ := moveDown_decomp o u hmem hlast
    exact ⟨pre, y, suf, hdec, hres⟩

theorem C5_witness :
    blockOrder [some "a", some "b"] (.moveBlockUp "a") = [some "a", some "b"] ∧
    blockOrder [some "a", some "b"] (.moveBlockDown "b") = [some "a", some "b"] ∧
    (∃ pre x suf, ([some "a", some "b"] : Order) = pre ++ x :: some "b" :: suf ∧
      blockOrder [some "a", some "b"] (.moveBlockUp "b")
        = pre ++ some "b" :: x :: suf) ∧
    (∃ pre y suf, ([some "a", some "b"] : Order) = pre ++ some "a" :: y :: suf ∧
      blockOrder [some "a", some "b"] (.moveBlockDown "a")
        = pre ++ y :: some "a" :: suf) := by
  have h1 := C5_move_swap [some "a", some "b"] [] "a"
  have h2 := C5_move_swap [some "a", some "b"] [] "b"
  exact ⟨h1.1 (by decide), h2.2.1 (by decide),
    h2.2.2.1 (by decide) (by decide), h1.2.2.2.1 (by decide) (by decide)⟩

/-- Claim C1 counterexample: from the initial document-content state
(empty map, empty order) an `UPDATE_BLOCK` targeting the unknown
identifier `"a"` adds the key `"a"` to the block map while `blockOrder`
stays empty, so `set(blockOrder) == keys(blocksByUid)` fails after this
transition. -/
theorem C1_counterexample :
    ¬ orderMapInv (blockOrder [] (.updateBlock "a" emptyObj))
      (blocksByUid [] (.updateBlock "a" emptyObj)) :=
  fun hinv =>
    absurd ((hinv (some "a")).mpr ⟨"a", rfl, by decide⟩) (by decide)

/-- Claim C1 (amended): `set(blockOrder) == keys(blocksByUid)` is
established by `EDIT_POST`, preserved unconditionally by `INSERT_BLOCK`,
`REMOVE_BLOCK` and every event the slice does not handle, and preserved by
`UPDATE_BLOCK` and `SWITCH_BLOCK_TYPE` when their target identifier is
already a key of the map, and by the move events when their target
identifier occurs in `blockOrder` (an `UPDATE_BLOCK` or
`SWITCH_BLOCK_TYPE` on an unknown identifier adds a dangling map key, and
a move on an identifier absent from `blockOrder` corrupts the order). -/
theorem C1_invariant_preserved (o : Order) (m : BlockMap) (a : Action)
    (hinv : orderMapInv o m)
    (hupd : ∀ u v, a = .updateBlock u v → hasKey m u = true)
    (hsw : ∀ u b, a = .switchBlockType u b → hasKey m u = true)
    (hup : ∀ u, a = .moveBlockUp u → some u ∈ o)
    (hdn : ∀ u, a = .moveBlockDown u → some u ∈ o) :
    orderMapInv (blockOrder o a) (blocksByUid m a) := by
  cases a with
  | editPost p ns =>
    intro x
    simp only [blockOrder, blocksByUid]
    constructor
    · intro hx
      obtain ⟨b, hb, rfl⟩ := List.mem_map.mp hx
      refine ⟨b.uid, rfl, ?_⟩
      rw [hasKey_keyBy]
      exact List.any_eq_true.mpr ⟨b, hb, by simp⟩
    · rintro ⟨u, rfl, hu⟩
      rw [hasKey_keyBy] at hu
      obtain ⟨b, hb, hbu⟩ := List.any_eq_true.mp hu
      simp at hbu
      exact List.mem_map.mpr ⟨b, hb, by rw [hbu]⟩
  | updateBlock u v =>
    have hk := hupd u v rfl
    have hkey : ∀ w, hasKey (blocksByUid m (.updateBlock u v)) w = hasKey m w := by
      intro w
      simp only [blocksByUid]
      rw [hasKey_objSet]
      by_cases hw : u = w
      · subst hw
        simp [hk]
      · simp [hw]
    intro x
    show x ∈ o ↔ _
    rw [hinv x]
    constructor
    · rintro ⟨w, rfl, hw⟩
      exact ⟨w, rfl, by rw [hkey]; exact hw⟩
    · rintro ⟨w, rfl, hw⟩
      rw [hkey] at hw
      exact ⟨w, rfl, hw⟩
  | switchBlockType u b =>
    have hk := hsw u b rfl
    have hkey : ∀ w, hasKey (blocksByUid m (.switchBlockType u b)) w
        = hasKey m w := by
      intro w
      simp only [blocksByUid]
      rw [hasKey_objSet]
      by_cases hw : u = w
      · subst hw
        simp [hk]
      · simp [hw]
    intro x
    show x ∈ o ↔ _
    rw [hinv x]
    constructor
    · rintro ⟨w, rfl, hw⟩
      exact ⟨w, rfl, by rw [hkey]; exact hw⟩
    · rintro ⟨w, rfl, hw⟩
      rw [hkey] at hw
      exact ⟨w, rfl, hw⟩
  | insertBlock b aft =>
    obtain ⟨p, hp, heq⟩ := insertBlock_order o b aft
    intro x
    rw [heq]
    simp only [blocksByUid]
    constructor
    · intro hx
      rcases List.mem_append.mp hx with hx | hx
      · obtain ⟨w, rfl, hw⟩ := (hinv x).mp (List.mem_of_mem_take hx)
        exact ⟨w, rfl, by rw [hasKey_objSet]; simp [hw]⟩
      · rcases List.mem_cons.mp hx with rfl | hx
        · exact ⟨b.uid, rfl, by rw [hasKey_objSet]; simp⟩
        · obtain ⟨w, rfl, hw⟩ := (hinv x).mp (List.mem_of_mem_drop hx)
          exact ⟨w, rfl, by rw [hasKey_objSet]; simp [hw]⟩
    · rintro ⟨w, rfl, hw⟩
      rw [hasKey_objSet] at hw
      by_cases hbw : b.uid = w
      · subst hbw
        exact List.mem_append.mpr (Or.inr (List.mem_cons_self _ _))
      · have hw2 : hasKey m w = true := by simpa [hbw] using hw
        have hxo : some w ∈ o := (hinv (some w)).mpr ⟨w, rfl, hw2⟩
        rw [← List.take_append_drop p o] at hxo
        rcases List.mem_append.mp hxo with hx | hx
        · exact List.mem_append.mpr (Or.inl hx)
        · exact List.mem_append.mpr (Or.inr (List.mem_cons_of_mem _ hx))
  | removeBlock u =>
    intro x
    simp only [blockOrder, blocksByUid]
    constructor
    · intro hx
      obtain ⟨hxo, hne⟩ := List.mem_filter.mp hx
      obtain ⟨w, rfl, hw⟩ := (hinv _).mp hxo
      refine ⟨w, rfl, ?_⟩
      rw [hasKey_objOmit]
      have hwu : ¬ w = u := by simpa using hne
      simp [hw, hwu]
    · rintro ⟨w, rfl, hw⟩
      rw [hasKey_objOmit] at hw
      rw [Bool.and_eq_true] at hw
      obtain ⟨hw1, hw2⟩ := hw
      refine List.mem_filter.mpr ⟨(hinv _).mpr ⟨w, rfl, hw1⟩, ?_⟩
      simpa using hw2
  | moveBlockUp u =>
    have hmem := hup u rfl
    by_cases hhead : jsIndex o 0 = some u
    · intro x
      rw [show blockOrder o (.moveBlockUp u) = o from by simp [blockOrder, hhead]]
      exact hinv x
    · obtain ⟨pre, x0, suf, hdec, _, _, hres⟩ := moveUp_decomp o u hmem hhead
      intro x
      rw [hres]
      have hiff : x ∈ pre ++ some u :: x0 :: suf ↔ x ∈ o := by
        rw [hdec]
        simp only [List.mem_append, List.mem_cons]
        tauto
      rw [hiff]
      exact hinv x
  | moveBlockDown u =>
    have hmem := hdn u rfl
    by_cases hlast : jsLast o = some u
    · intro x
      rw [show blockOrder o (.moveBlockDown u) = o from by simp [blockOrder, hlast]]
      exact hinv x
    · obtain ⟨pre, y, suf, hdec, _, hres⟩ := moveDown_decomp o u hmem hlast
      intro x
      rw [hres]
      have hiff : x ∈ pre ++ y :: some u :: suf ↔ x ∈ o := by
        rw [hdec]
        simp only [List.mem_append, List.mem_cons]
        tauto
      rw [hiff]
      exact hinv x
  | postUpdateRequest isNew => exact hinv
  | postUpdateRequestSuccess p isNew => exact hinv
  | postUpdateRequestFailure e isNew => exact hinv
  | toggleBlockSelected uid sel => exact hinv
  | toggleBlockHovered uid hov => exact hinv
  | updateFocus uid config => exact hinv
  | startTyping uid => exact hinv
  | switchMode md => exact hinv
  | toggleSidebar => exact hinv

theorem C1_witness :
    orderMapInv (blockOrder [] (.insertBlock ⟨"a", "core/freeform", []⟩ none))
      (blocksByUid [] (.insertBlock ⟨"a", "core/freeform", []⟩ none)) := by
  apply C1_invariant_preserved
  · intro x
    constructor
    · intro hx
      cases hx
    · rintro ⟨u, rfl, hu⟩
      rw [show hasKey [] u = false from rfl] at hu
      cases hu
  · intro u v h
    exact Action.noConfusion h
  · intro u b h
    exact Action.noConfusion h
  · intro u h
    exact Action.noConfusion h
  · intro u h
    exact Action.noConfusion h

end Gutenberg
